import Mathlib

/- Formal model of the duplicate-file finder (src/main.py).
   Modelled here: SizeParser.parse_size, FileProcessor.process_file, the
   directory walk and candidate collection inside
   FileProcessor.find_duplicates, the sequential aggregation of worker
   results into the scan result, export_to_file, and main's control flow
   after the scan.  Strings are modelled as lists of characters where
   character-level reasoning is needed; filesystem paths are lists of path
   components; the filesystem is a partial map from paths to file
   metadata.  A Python function that can raise is modelled with Option
   (none = the exception). -/

/-- `SizeParser.UNITS`: the binary multiple associated with a unit letter. -/
def UNITS : Char → Option Nat
  | 'K' => some 1024
  | 'M' => some (1024 ^ 2)
  | 'G' => some (1024 ^ 3)
  | 'T' => some (1024 ^ 4)
  | _ => none

/-- Python `str.isdigit` (ASCII): the string is nonempty and every
character is a decimal digit. -/
def isdigitStr (s : List Char) : Bool := !s.isEmpty && s.all Char.isDigit

/-- Python `int` applied to a decimal digit string. -/
def strToNat (s : List Char) : Nat := s.foldl (fun a c => a * 10 + (c.toNat - 48)) 0

/-- `SizeParser.parse_size` (src/main.py:45-80).  The input is upper-cased;
`"0B"` maps to 0; a bare digit string is taken as bytes; a digit string
followed by `B` is taken as bytes; a digit string followed by one of
`KB`, `MB`, `GB`, `TB` is scaled by the unit's binary multiple; anything
else raises `ValueError`, modelled as `none`. -/
def parse_size (input : List Char) : Option Nat :=
  let s := input.map Char.toUpper
  if s = ['0', 'B'] then some 0
  else if isdigitStr s then some (strToNat s)
  else if s.getLast? = some 'B' then
    let body := s.dropLast
    if isdigitStr body then some (strToNat body)
    else
      match body.getLast? with
      | some u =>
        if s.length > 2 && !u.isDigit then
          match UNITS u with
          | some m =>
            if isdigitStr body.dropLast then some (strToNat body.dropLast * m)
            else none
          | none => none
        else none
      | none => none
  else none

/-- The unit suffixes named by the spec: `B|K|KB|M|MB|G|GB|T|TB`
(upper-cased). -/
def sizeSuffixes : List (List Char) :=
  [['B'], ['K'], ['K', 'B'], ['M'], ['M', 'B'], ['G'], ['G', 'B'], ['T'], ['T', 'B']]

/-- Follows the spec's words (section 4.1): the input, case-insensitively,
is either a bare non-negative integer or a non-negative integer
immediately followed by one of the unit suffixes.  Stated for comparison
with what `parse_size` actually accepts. -/
def specAcceptedFormat (input : List Char) : Bool :=
  isdigitStr (input.map Char.toUpper) ||
    sizeSuffixes.any (fun sfx =>
      ((input.map Char.toUpper).drop ((input.map Char.toUpper).length - sfx.length) == sfx)
        && isdigitStr ((input.map Char.toUpper).take ((input.map Char.toUpper).length - sfx.length)))

/-- The binary multiple the claim associates with each accepted
(upper-cased) suffix. -/
def sizeUnitMult : List Char → Nat
  | ['B'] => 1
  | ['K', 'B'] => 1024
  | ['M', 'B'] => 1024 ^ 2
  | ['G', 'B'] => 1024 ^ 3
  | ['T', 'B'] => 1024 ^ 4
  | _ => 0

theorem upper_of_digit (c : Char) (h : c.isDigit = true) : c.toUpper = c := by
  simp [Char.isDigit] at h
  simp [Char.toUpper, Char.toNat]
  intro h1 h2
  exfalso
  have hv : c.val ≤ 57 := h.2
  have hv' : c.val.toNat ≤ 57 := by exact_mod_cast hv
  omega

theorem mapUpper_of_digits (l : List Char) (h : ∀ c ∈ l, c.isDigit = true) :
    l.map Char.toUpper = l := by
  induction l with
  | nil => rfl
  | cons c t ih =>
    simp only [List.map_cons]
    rw [upper_of_digit c (h c (List.mem_cons_self c t)), ih (fun x hx => h x (List.mem_cons_of_mem c hx))]

theorem isdigitStr_ne_nil {l : List Char} (h : isdigitStr l = true) : l ≠ [] := by
  unfold isdigitStr at h
  rintro rfl
  simp at h

theorem isdigitStr_mem {l : List Char} (h : isdigitStr l = true) : ∀ c ∈ l, c.isDigit = true := by
  unfold isdigitStr at h
  simp [List.all_eq_true] at h
  exact h.2

theorem mapUpper_of_isdigitStr {l : List Char} (h : isdigitStr l = true) :
    l.map Char.toUpper = l :=
  mapUpper_of_digits l (isdigitStr_mem h)

theorem eq_dropLast_concat {l : List Char} {c : Char} (h : l.getLast? = some c) :
    l = l.dropLast ++ [c] := by
  have hne : l ≠ [] := by rintro rfl; simp at h
  have hd := List.dropLast_append_getLast hne
  rw [List.getLast?_eq_getLast l hne] at h
  simp at h
  rw [← h]
  exact hd.symm

theorem isdigitStr_concat_nondigit (ds : List Char) (c : Char) (hc : c.isDigit = false) :
    isdigitStr (ds ++ [c]) = false := by
  simp [isdigitStr, List.all_append, hc]

/-- The grammar accepts any upper-cased decomposition digit-string ++
accepted suffix. -/
theorem specAccepted_of_decomp (input ds sfx : List Char)
    (hmap : input.map Char.toUpper = ds ++ sfx)
    (hsfx : sfx ∈ sizeSuffixes) (hds : isdigitStr ds = true) :
    specAcceptedFormat input = true := by
  unfold specAcceptedFormat
  rw [hmap]
  have hlen : (ds ++ sfx).length - sfx.length = ds.length := by simp
  simp only [Bool.or_eq_true, List.any_eq_true]
  right
  refine ⟨sfx, hsfx, ?_⟩
  rw [hlen, List.drop_left, List.take_left]
  simp [hds]

/-- Completeness of rejection: whenever `parse_size` returns a value, the
input matched the spec's grammar. -/
theorem parse_size_some_specAccepted (input : List Char) (n : Nat)
    (h : parse_size input = some n) : specAcceptedFormat input = true := by
  simp only [parse_size] at h
  by_cases h0 : input.map Char.toUpper = ['0', 'B']
  · exact specAccepted_of_decomp input ['0'] ['B'] (by rw [h0]; rfl) (by decide) (by decide)
  · rw [if_neg h0] at h
    by_cases h1 : isdigitStr (input.map Char.toUpper) = true
    · unfold specAcceptedFormat
      simp [h1]
    · rw [if_neg (by simp [h1])] at h
      by_cases h2 : (input.map Char.toUpper).getLast? = some 'B'
      · rw [if_pos h2] at h
        have hsplit := eq_dropLast_concat h2
        by_cases h3 : isdigitStr (input.map Char.toUpper).dropLast = true
        · exact specAccepted_of_decomp input _ ['B'] hsplit (by decide) h3
        · rw [if_neg (by simp [h3])] at h
          split at h
          · rename_i u hu
            have hbody := eq_dropLast_concat hu
            split at h
            · rename_i h4
              split at h
              · rename_i m hU
                split at h
                · rename_i h5
                  have hdecomp : input.map Char.toUpper =
                      ((input.map Char.toUpper).dropLast).dropLast ++ [u, 'B'] :=
                    calc input.map Char.toUpper
                        = (input.map Char.toUpper).dropLast ++ ['B'] := hsplit
                      _ = (((input.map Char.toUpper).dropLast).dropLast ++ [u]) ++ ['B'] := by
                            rw [← hbody]
                      _ = ((input.map Char.toUpper).dropLast).dropLast ++ [u, 'B'] := by simp
                  have hmem : [u, 'B'] ∈ sizeSuffixes := by
                    unfold UNITS at hU
                    split at hU <;> first | decide | exact absurd hU (by simp)
                  exact specAccepted_of_decomp input _ [u, 'B'] hdecomp hmem h5
                · exact absurd h (by simp)
              · exact absurd h (by simp)
            · exact absurd h (by simp)
          · exact absurd h (by simp)
      · rw [if_neg h2] at h
        exact absurd h (by simp)

theorem parse_upper_B (input ds : List Char) (hds : isdigitStr ds = true)
    (hm : input.map Char.toUpper = ds ++ ['B']) :
    parse_size input = some (strToNat ds) := by
  simp only [parse_size, hm]
  by_cases h0 : ds ++ ['B'] = (['0', 'B'] : List Char)
  · have hds0 : ds = ['0'] := by
      have := congrArg List.dropLast h0
      simpa using this
    rw [if_pos h0, hds0]
    decide
  · rw [if_neg h0]
    have hnd : isdigitStr (ds ++ ['B']) = false :=
      isdigitStr_concat_nondigit ds 'B' (by decide)
    rw [if_neg (by simp [hnd])]
    have hgl : (ds ++ ['B']).getLast? = some 'B' := by simp
    rw [if_pos hgl]
    have hdl : (ds ++ ['B']).dropLast = ds := by simp
    rw [hdl, if_pos hds]

theorem parse_upper_unitB (input ds : List Char) (u : Char) (m : Nat)
    (hds : isdigitStr ds = true) (hU : UNITS u = some m) (hud : u.isDigit = false)
    (hm : input.map Char.toUpper = ds ++ [u, 'B']) :
    parse_size input = some (strToNat ds * m) := by
  have hne := isdigitStr_ne_nil hds
  have hpair : ds ++ [u, 'B'] = (ds ++ [u]) ++ ['B'] := by simp
  simp only [parse_size, hm]
  have h0 : ds ++ [u, 'B'] ≠ (['0', 'B'] : List Char) := by
    intro heq
    have hl := congrArg List.length heq
    simp at hl
    exact hne hl
  rw [if_neg h0]
  have hnd : isdigitStr (ds ++ [u, 'B']) = false := by
    rw [hpair]
    exact isdigitStr_concat_nondigit _ 'B' (by decide)
  rw [if_neg (by simp [hnd])]
  have hgl : (ds ++ [u, 'B']).getLast? = some 'B' := by
    rw [hpair]; simp
  rw [if_pos hgl]
  have hdl : (ds ++ [u, 'B']).dropLast = ds ++ [u] := by
    rw [hpair]; simp
  rw [hdl]
  have hnd2 : isdigitStr (ds ++ [u]) = false := isdigitStr_concat_nondigit ds u hud
  rw [if_neg (by simp [hnd2])]
  split
  · rename_i u' hgl2
    simp at hgl2
    subst hgl2
    rw [if_pos (by simp [hud]; exact List.length_pos.mpr hne)]
    split
    · rename_i m' hU'
      rw [hU] at hU'
      have hmm : m = m' := by simpa using hU'
      subst hmm
      rw [if_pos (by simp [hds])]
      simp
    · rename_i hU'
      rw [hU] at hU'
      exact absurd hU' (by simp)
  · rename_i hgl2
    simp at hgl2

theorem parse_upper_unit_bare (input ds : List Char) (u : Char)
    (_hds : isdigitStr ds = true) (hub : u ≠ 'B') (hud : u.isDigit = false)
    (hm : input.map Char.toUpper = ds ++ [u]) :
    parse_size input = none := by
  simp only [parse_size, hm]
  have h0 : ds ++ [u] ≠ (['0', 'B'] : List Char) := by
    intro heq
    have := congrArg List.getLast? heq
    simp at this
    exact hub this
  rw [if_neg h0]
  rw [if_neg (by simp [isdigitStr_concat_nondigit ds u hud])]
  rw [if_neg (by simp [hub] : ¬((ds ++ [u]).getLast? = some 'B'))]

/-- C7 (amended): the unit suffixes the parser accepts are `B`, `KB`, `MB`,
`GB`, `TB` (case-insensitive), each with its binary multiple; the bare
suffixes `K`, `M`, `G`, `T` named by the spec are rejected.  For every
nonempty digit string `ds` and suffix `suf`, parsing `ds ++ suf` yields
the value of `ds` times the suffix's multiple when the upper-cased suffix
is accepted, and fails when it is a bare unit letter. -/
theorem parse_size_unit_suffix_correct (ds suf : List Char)
    (hds : isdigitStr ds = true) :
    (suf.map Char.toUpper ∈ ([['B'], ['K', 'B'], ['M', 'B'], ['G', 'B'], ['T', 'B']] : List (List Char)) →
      parse_size (ds ++ suf) = some (strToNat ds * sizeUnitMult (suf.map Char.toUpper))) ∧
    (suf.map Char.toUpper ∈ ([['K'], ['M'], ['G'], ['T']] : List (List Char)) →
      parse_size (ds ++ suf) = none) := by
  have hmam : (ds ++ suf).map Char.toUpper = ds ++ suf.map Char.toUpper := by
    rw [List.map_append, mapUpper_of_isdigitStr hds]
  constructor
  · intro hmem
    simp only [List.mem_cons, List.not_mem_nil, or_false] at hmem
    rcases hmem with h | h | h | h | h
    · rw [h, show sizeUnitMult ['B'] = 1 from rfl, Nat.mul_one]
      exact parse_upper_B _ ds hds (by rw [hmam, h])
    · rw [h, show sizeUnitMult ['K', 'B'] = 1024 from rfl]
      exact parse_upper_unitB _ ds 'K' 1024 hds (by decide) (by decide) (by rw [hmam, h])
    · rw [h, show sizeUnitMult ['M', 'B'] = 1024 ^ 2 from rfl]
      exact parse_upper_unitB _ ds 'M' (1024 ^ 2) hds (by decide) (by decide) (by rw [hmam, h])
    · rw [h, show sizeUnitMult ['G', 'B'] = 1024 ^ 3 from rfl]
      exact parse_upper_unitB _ ds 'G' (1024 ^ 3) hds (by decide) (by decide) (by rw [hmam, h])
    · rw [h, show sizeUnitMult ['T', 'B'] = 1024 ^ 4 from rfl]
      exact parse_upper_unitB _ ds 'T' (1024 ^ 4) hds (by decide) (by decide) (by rw [hmam, h])
  · intro hmem
    simp only [List.mem_cons, List.not_mem_nil, or_false] at hmem
    rcases hmem with h | h | h | h
    · exact parse_upper_unit_bare _ ds 'K' hds (by decide) (by decide) (by rw [hmam, h])
    · exact parse_upper_unit_bare _ ds 'M' hds (by decide) (by decide) (by rw [hmam, h])
    · exact parse_upper_unit_bare _ ds 'G' hds (by decide) (by decide) (by rw [hmam, h])
    · exact parse_upper_unit_bare _ ds 'T' hds (by decide) (by decide) (by rw [hmam, h])

/-- C7 counterexample: the claim says parsing `"10K"` returns 10240, but
`parse_size` rejects it (`SizeParser.parse_size` only reaches the unit
table after stripping a trailing `B`). -/
theorem parse_size_bare_K_rejected :
    parse_size ("10K".toList) = none ∧ parse_size ("10K".toList) ≠ some 10240 := by
  constructor
  · decide
  · decide

/-- C7 witness: instantiating the amended theorem at `"10kb"` (accepted,
lower case) and `"10m"` (bare unit, rejected). -/
theorem parse_size_unit_suffix_correct_witness :
    parse_size (['1', '0'] ++ ['k', 'b'])
        = some (strToNat ['1', '0'] * sizeUnitMult (['k', 'b'].map Char.toUpper)) ∧
      parse_size (['1', '0'] ++ ['m']) = none :=
  ⟨(parse_size_unit_suffix_correct ['1', '0'] ['k', 'b'] (by decide)).1 (by decide),
   (parse_size_unit_suffix_correct ['1', '0'] ['m'] (by decide)).2 (by decide)⟩

/-- C8: `"0"` and `"0B"` both parse to 0, and every input that does not
match the spec's grammar (a bare non-negative integer, or one followed by
an accepted unit suffix, case-insensitively) is rejected with an
invalid-format error (`none`), never a value; in particular negative
numbers are rejected. -/
theorem parse_size_zero_and_rejection :
    parse_size "0".toList = some 0 ∧ parse_size "0B".toList = some 0 ∧
      ∀ s : List Char, specAcceptedFormat s = false → parse_size s = none := by
  refine ⟨by decide, by decide, ?_⟩
  intro s hs
  cases hp : parse_size s with
  | none => rfl
  | some n => exact absurd (parse_size_some_specAccepted s n hp) (by simp [hs])

/-- C8 witness: the rejection clause applied to the concrete non-grammar
input `"-5"`. -/
theorem parse_size_zero_and_rejection_witness :
    parse_size "-5".toList = none :=
  parse_size_zero_and_rejection.2.2 ("-5".toList) (by decide)

/- ===== Filesystem model, process_file, and the aggregation loop ===== -/

/-- An absolute path, abstracted to its list of components (Python works
with absolute path strings; file and directory names never contain the
separator, so the component list determines the string). -/
abbrev AbsPath := List String

/-- Metadata the model keeps per regular file: its byte size, whether a
block-wise read of its content succeeds, and the hex digest hashing its
content would produce. -/
structure FSEntry where
  size : Nat
  readable : Bool
  hash : String
deriving DecidableEq

/-- The filesystem at scan time: a partial map from absolute paths to
file metadata.  `none` means there is no readable metadata at that path
(`os.path.getsize` raises `OSError`). -/
abbrev Filesystem := AbsPath → Option FSEntry

/-- `os.path.getsize` (raises when the path is absent). -/
def getsize (fs : Filesystem) (p : AbsPath) : Option Nat := (fs p).map (fun e => e.size)

/-- A successful worker result: the `(hash, path, size)` tuple returned
by `FileProcessor.process_file`. -/
abbrev FileRec := String × AbsPath × Nat

/-- `FileProcessor.process_file` (src/main.py:112-137): stat the file; if
its size is below the minimum, fail without reading it; otherwise hash
the content, failing on a read error.  `none` models both the skip and
the `IOError`/`OSError` branches (Python returns `None` for both). -/
def process_file (fs : Filesystem) (file_info : AbsPath × Nat) : Option FileRec :=
  match fs file_info.1 with
  | none => none
  | some e =>
    if e.size < file_info.2 then none
    else if e.readable then some (e.hash, file_info.1, e.size)
    else none

/-- The duplicate map: Python's insertion-ordered dict from digest to the
list of paths, as an association list with distinct keys. -/
abbrev HashMapL := List (String × List AbsPath)

/-- `hash_map[file_hash].append(filepath)` on a `defaultdict(list)`: an
existing key keeps its position and appends; a new key is appended at the
end with a singleton list. -/
def addRecord (m : HashMapL) (h : String) (p : AbsPath) : HashMapL :=
  match m with
  | [] => [(h, [p])]
  | (k, ps) :: rest => if k = h then (k, ps ++ [p]) :: rest else (k, ps) :: addRecord rest h p

/-- The result-consuming loop of `find_duplicates` (src/main.py:206-214):
each successful result extends the map and the running totals; `None`
results are skipped.  `acc` is `(hash_map, total_size, files_processed)`. -/
def consumeFrom (acc : HashMapL × Nat × Nat) : List (Option FileRec) → HashMapL × Nat × Nat
  | [] => acc
  | none :: rest => consumeFrom acc rest
  | some (h, p, s) :: rest => consumeFrom (addRecord acc.1 h p, acc.2.1 + s, acc.2.2 + 1) rest

def consume (results : List (Option FileRec)) : HashMapL × Nat × Nat :=
  consumeFrom ([], 0, 0) results

/-- src/main.py:217: keep only hashes with more than one path. -/
def duplicate_files (m : HashMapL) : HashMapL := m.filter (fun kv => kv.2.length > 1)

/-- One term of the `duplicate_size` sum (src/main.py:218-221):
`os.path.getsize(files[0]) * (len(files) - 1)`; `files[0]` on an empty
list or a vanished file raises, modelled as `none`. -/
def dupSetSize (fs : Filesystem) (files : List AbsPath) : Option Nat :=
  match files with
  | [] => none
  | p :: _ => (getsize fs p).map (fun s => s * (files.length - 1))

/-- src/main.py:218-221: the sum over all retained duplicate sets. -/
def duplicate_size (fs : Filesystem) : HashMapL → Option Nat
  | [] => some 0
  | kv :: rest =>
    match dupSetSize fs kv.2, duplicate_size fs rest with
    | some s, some t => some (s + t)
    | _, _ => none

/-- The tuple `find_duplicates` returns (src/main.py:223). -/
structure ScanResult where
  duplicates : HashMapL
  total_size : Nat
  dup_size : Nat
  files_processed : Nat
deriving DecidableEq

/-- The sequential aggregation in `find_duplicates` (src/main.py:203-223):
consume the worker results in arrival order, filter out unique files,
and price the duplicates. -/
def aggregate (fs : Filesystem) (results : List (Option FileRec)) : Option ScanResult :=
  let a := consume results
  let dups := duplicate_files a.1
  (duplicate_size fs dups).map (fun ds => ⟨dups, a.2.1, ds, a.2.2⟩)

/-- The successful results among a result sequence. -/
def successes (results : List (Option FileRec)) : List FileRec := results.filterMap id

/-- The paths of the successful results carrying digest `h`, in arrival
order: what the aggregation stores under key `h`. -/
def pathsFor (results : List (Option FileRec)) (h : String) : List AbsPath :=
  ((successes results).filter (fun r => r.1 == h)).map (fun r => r.2.1)

/-- The size recorded in the first successful result carrying digest `h`:
the "size of the set's first member". -/
def firstRecordSize (results : List (Option FileRec)) (h : String) : Option Nat :=
  ((successes results).find? (fun r => r.1 == h)).map (fun r => r.2.2)

/-- Association-list lookup with the `defaultdict` default. -/
def entryFor : HashMapL → String → List AbsPath
  | [], _ => []
  | (k, ps) :: rest, h => if k = h then ps else entryFor rest h

def keysOf (m : HashMapL) : List String := m.map Prod.fst

/- ===== Aggregation lemmas ===== -/

theorem entryFor_addRecord_same (m : HashMapL) (h : String) (p : AbsPath) :
    entryFor (addRecord m h p) h = entryFor m h ++ [p] := by
  induction m with
  | nil => simp [addRecord, entryFor]
  | cons kv rest ih =>
    obtain ⟨k, ps⟩ := kv
    by_cases hk : k = h
    · simp [addRecord, entryFor, hk]
    · simp [addRecord, entryFor, hk, ih]

theorem entryFor_addRecord_ne (m : HashMapL) (h h' : String) (p : AbsPath) (hne : h' ≠ h) :
    entryFor (addRecord m h p) h' = entryFor m h' := by
  induction m with
  | nil => simp [addRecord, entryFor, Ne.symm hne]
  | cons kv rest ih =>
    obtain ⟨k, ps⟩ := kv
    by_cases hk : k = h
    · subst hk
      simp [addRecord, entryFor, Ne.symm hne]
    · by_cases hk' : k = h'
      · simp [addRecord, entryFor, hk, hk', hne]
      · simp [addRecord, entryFor, hk, hk', ih]

theorem keysOf_addRecord (m : HashMapL) (h : String) (p : AbsPath) :
    keysOf (addRecord m h p) = if h ∈ keysOf m then keysOf m else keysOf m ++ [h] := by
  induction m with
  | nil => simp [addRecord, keysOf]
  | cons kv rest ih =>
    obtain ⟨k, ps⟩ := kv
    by_cases hk : k = h
    · simp [addRecord, keysOf, hk]
    · simp only [addRecord, if_neg hk, keysOf, List.map_cons] at ih ⊢
      rw [ih]
      by_cases hm : h ∈ List.map Prod.fst rest
      · rw [if_pos hm, if_pos (List.mem_cons_of_mem k hm)]
      · rw [if_neg hm, if_neg (by simp [hm, Ne.symm hk])]
        simp

theorem mem_keysOf_addRecord (m : HashMapL) (h h' : String) (p : AbsPath) :
    h' ∈ keysOf (addRecord m h p) ↔ h' ∈ keysOf m ∨ h' = h := by
  rw [keysOf_addRecord]
  by_cases hm : h ∈ keysOf m
  · rw [if_pos hm]
    constructor
    · exact Or.inl
    · rintro (hh | rfl)
      · exact hh
      · exact hm
  · simp [hm]

theorem nodup_keysOf_addRecord (m : HashMapL) (h : String) (p : AbsPath)
    (hn : (keysOf m).Nodup) : (keysOf (addRecord m h p)).Nodup := by
  rw [keysOf_addRecord]
  by_cases hm : h ∈ keysOf m
  · simpa [hm] using hn
  · simp [hm, List.nodup_append, hn]

theorem vals_addRecord_ne_nil (m : HashMapL) (h : String) (p : AbsPath)
    (hv : ∀ kv ∈ m, kv.2 ≠ []) : ∀ kv ∈ addRecord m h p, kv.2 ≠ [] := by
  induction m with
  | nil =>
    intro kv hkv
    simp [addRecord] at hkv
    subst hkv
    simp
  | cons kv0 rest ih =>
    obtain ⟨k, ps⟩ := kv0
    intro kv hkv
    by_cases hk : k = h
    · simp [addRecord, hk] at hkv
      rcases hkv with hkv | hkv
      · subst hkv
        simp
      · exact hv kv (List.mem_cons_of_mem _ hkv)
    · simp [addRecord, hk] at hkv
      rcases hkv with hkv | hkv
      · subst hkv
        exact hv (k, ps) (List.mem_cons_self _ _)
      · exact ih (fun x hx => hv x (List.mem_cons_of_mem _ hx)) kv hkv

theorem mem_of_key (m : HashMapL) (h : String) (hk : h ∈ keysOf m) :
    (h, entryFor m h) ∈ m := by
  induction m with
  | nil => simp [keysOf] at hk
  | cons kv rest ih =>
    obtain ⟨k, ps⟩ := kv
    by_cases hkh : k = h
    · subst hkh
      simp [entryFor]
    · have hk' : h ∈ keysOf rest := by
        simp only [keysOf, List.map_cons, List.mem_cons] at hk
        rcases hk with hk | hk
        · exact absurd hk.symm hkh
        · exact hk
      simp only [entryFor, if_neg hkh]
      exact List.mem_cons_of_mem _ (ih hk')

theorem mem_keysOf_of_mem (m : HashMapL) (kv : String × List AbsPath) (hm : kv ∈ m) :
    kv.1 ∈ keysOf m := List.mem_map_of_mem Prod.fst hm

theorem entryFor_of_mem (m : HashMapL) (h : String) (ps : List AbsPath)
    (hn : (keysOf m).Nodup) (hm : (h, ps) ∈ m) : entryFor m h = ps := by
  induction m with
  | nil => simp at hm
  | cons kv rest ih =>
    obtain ⟨k, qs⟩ := kv
    simp only [keysOf, List.map_cons] at hn
    have hn' := List.nodup_cons.mp hn
    rcases List.mem_cons.mp hm with he | hm'
    · injection he with h1 h2
      subst h1
      subst h2
      simp [entryFor]
    · have hkh : k ≠ h := by
        intro hkh
        subst hkh
        exact hn'.1 (mem_keysOf_of_mem rest (k, ps) hm')
      simp only [entryFor, if_neg hkh]
      exact ih hn'.2 hm'

theorem successes_cons_none (rest : List (Option FileRec)) :
    successes (none :: rest) = successes rest := rfl

theorem successes_cons_some (r : FileRec) (rest : List (Option FileRec)) :
    successes (some r :: rest) = r :: successes rest := rfl

theorem consumeFrom_total (results : List (Option FileRec)) :
    ∀ acc, (consumeFrom acc results).2.1
      = acc.2.1 + ((successes results).map (fun r => r.2.2)).sum := by
  induction results with
  | nil => intro acc; simp [consumeFrom, successes]
  | cons r rest ih =>
    intro acc
    cases r with
    | none =>
      rw [show consumeFrom acc (none :: rest) = consumeFrom acc rest from rfl,
        successes_cons_none, ih]
    | some rc =>
      obtain ⟨h, p, s⟩ := rc
      rw [show consumeFrom acc (some (h, p, s) :: rest)
          = consumeFrom (addRecord acc.1 h p, acc.2.1 + s, acc.2.2 + 1) rest from rfl, ih]
      simp [successes_cons_some]
      omega

theorem consumeFrom_count (results : List (Option FileRec)) :
    ∀ acc, (consumeFrom acc results).2.2 = acc.2.2 + (successes results).length := by
  induction results with
  | nil => intro acc; simp [consumeFrom, successes]
  | cons r rest ih =>
    intro acc
    cases r with
    | none =>
      rw [show consumeFrom acc (none :: rest) = consumeFrom acc rest from rfl,
        successes_cons_none, ih]
    | some rc =>
      obtain ⟨h, p, s⟩ := rc
      rw [show consumeFrom acc (some (h, p, s) :: rest)
          = consumeFrom (addRecord acc.1 h p, acc.2.1 + s, acc.2.2 + 1) rest from rfl, ih]
      simp [successes_cons_some]
      omega

theorem consumeFrom_entry (results : List (Option FileRec)) :
    ∀ acc (h : String), entryFor (consumeFrom acc results).1 h
      = entryFor acc.1 h
        ++ ((successes results).filter (fun r => r.1 == h)).map (fun r => r.2.1) := by
  induction results with
  | nil => intro acc h; simp [consumeFrom, successes]
  | cons r rest ih =>
    intro acc h
    cases r with
    | none =>
      rw [show consumeFrom acc (none :: rest) = consumeFrom acc rest from rfl,
        successes_cons_none, ih]
    | some rc =>
      obtain ⟨h0, p0, s0⟩ := rc
      rw [show consumeFrom acc (some (h0, p0, s0) :: rest)
          = consumeFrom (addRecord acc.1 h0 p0, acc.2.1 + s0, acc.2.2 + 1) rest from rfl, ih]
      by_cases hh : h0 = h
      · subst hh
        rw [show (addRecord acc.1 h0 p0, acc.2.1 + s0, acc.2.2 + 1).1
            = addRecord acc.1 h0 p0 from rfl, entryFor_addRecord_same]
        simp [successes_cons_some, List.filter_cons, List.append_assoc]
      · rw [show (addRecord acc.1 h0 p0, acc.2.1 + s0, acc.2.2 + 1).1
            = addRecord acc.1 h0 p0 from rfl, entryFor_addRecord_ne _ _ _ _ (Ne.symm hh)]
        simp [successes_cons_some, List.filter_cons, hh]

theorem consumeFrom_mem_keys (results : List (Option FileRec)) :
    ∀ acc (h : String), h ∈ keysOf (consumeFrom acc results).1
      ↔ h ∈ keysOf acc.1 ∨ h ∈ (successes results).map (fun r => r.1) := by
  induction results with
  | nil => intro acc h; simp [consumeFrom, successes]
  | cons r rest ih =>
    intro acc h
    cases r with
    | none =>
      rw [show consumeFrom acc (none :: rest) = consumeFrom acc rest from rfl,
        successes_cons_none, ih]
    | some rc =>
      obtain ⟨h0, p0, s0⟩ := rc
      rw [show consumeFrom acc (some (h0, p0, s0) :: rest)
          = consumeFrom (addRecord acc.1 h0 p0, acc.2.1 + s0, acc.2.2 + 1) rest from rfl, ih]
      rw [show (addRecord acc.1 h0 p0, acc.2.1 + s0, acc.2.2 + 1).1
          = addRecord acc.1 h0 p0 from rfl]
      rw [mem_keysOf_addRecord]
      simp [successes_cons_some]
      tauto

theorem consumeFrom_keys_nodup (results : List (Option FileRec)) :
    ∀ acc, (keysOf acc.1).Nodup → (keysOf (consumeFrom acc results).1).Nodup := by
  induction results with
  | nil => intro acc hn; exact hn
  | cons r rest ih =>
    intro acc hn
    cases r with
    | none => exact ih acc hn
    | some rc =>
      obtain ⟨h0, p0, s0⟩ := rc
      exact ih (addRecord acc.1 h0 p0, acc.2.1 + s0, acc.2.2 + 1)
        (nodup_keysOf_addRecord acc.1 h0 p0 hn)

theorem consumeFrom_vals_ne_nil (results : List (Option FileRec)) :
    ∀ acc, (∀ kv ∈ acc.1, kv.2 ≠ []) → ∀ kv ∈ (consumeFrom acc results).1, kv.2 ≠ [] := by
  induction results with
  | nil => intro acc hv; exact hv
  | cons r rest ih =>
    intro acc hv
    cases r with
    | none => exact ih acc hv
    | some rc =>
      obtain ⟨h0, p0, s0⟩ := rc
      exact ih (addRecord acc.1 h0 p0, acc.2.1 + s0, acc.2.2 + 1)
        (vals_addRecord_ne_nil acc.1 h0 p0 hv)

theorem consume_total (results : List (Option FileRec)) :
    (consume results).2.1 = ((successes results).map (fun r => r.2.2)).sum := by
  rw [consume, consumeFrom_total]
  simp

theorem consume_count (results : List (Option FileRec)) :
    (consume results).2.2 = (successes results).length := by
  rw [consume, consumeFrom_count]
  simp

theorem consume_entry (results : List (Option FileRec)) (h : String) :
    entryFor (consume results).1 h = pathsFor results h := by
  rw [consume, consumeFrom_entry]
  simp [entryFor, pathsFor]

theorem consume_mem_keys (results : List (Option FileRec)) (h : String) :
    h ∈ keysOf (consume results).1 ↔ h ∈ (successes results).map (fun r => r.1) := by
  rw [consume, consumeFrom_mem_keys]
  simp [keysOf]

theorem consume_keys_nodup (results : List (Option FileRec)) :
    (keysOf (consume results).1).Nodup := by
  rw [consume]
  exact consumeFrom_keys_nodup results ([], 0, 0) (by simp [keysOf])

theorem consume_vals_ne_nil (results : List (Option FileRec)) :
    ∀ kv ∈ (consume results).1, kv.2 ≠ [] := by
  rw [consume]
  exact consumeFrom_vals_ne_nil results ([], 0, 0) (by simp)

theorem consume_mem_iff (results : List (Option FileRec)) (hsh : String) (ps : List AbsPath) :
    (hsh, ps) ∈ (consume results).1
      ↔ hsh ∈ (successes results).map (fun r => r.1) ∧ ps = pathsFor results hsh := by
  constructor
  · intro hm
    refine ⟨(consume_mem_keys results hsh).mp (mem_keysOf_of_mem _ (hsh, ps) hm), ?_⟩
    rw [← consume_entry]
    exact (entryFor_of_mem _ hsh ps (consume_keys_nodup results) hm).symm
  · rintro ⟨hk, rfl⟩
    have hmem := mem_of_key (consume results).1 hsh ((consume_mem_keys results hsh).mpr hk)
    rw [consume_entry] at hmem
    exact hmem

theorem mem_duplicate_files (m : HashMapL) (kv : String × List AbsPath) :
    kv ∈ duplicate_files m ↔ kv ∈ m ∧ 1 < kv.2.length := by
  simp [duplicate_files, List.mem_filter]

theorem duplicate_size_eq_some (fs : Filesystem) (dups : HashMapL)
    (g : String × List AbsPath → Nat)
    (hpt : ∀ kv ∈ dups, dupSetSize fs kv.2 = some (g kv)) :
    duplicate_size fs dups = some ((dups.map g).sum) := by
  induction dups with
  | nil => simp [duplicate_size]
  | cons kv rest ih =>
    have h1 := hpt kv (List.mem_cons_self _ _)
    have h2 := ih (fun x hx => hpt x (List.mem_cons_of_mem _ hx))
    simp [duplicate_size, h1, h2]

theorem find?_eq_head_filter {α : Type} (p : α → Bool) (l : List α) :
    l.find? p = (l.filter p).head? := by
  induction l with
  | nil => rfl
  | cons a t ih =>
    by_cases hp : p a = true
    · rw [List.find?_cons_of_pos _ hp, List.filter_cons_of_pos hp]
      rfl
    · have hp' : p a = false := by simpa using hp
      rw [List.find?_cons_of_neg _ (by simp [hp']), List.filter_cons_of_neg (by simp [hp'])]
      exact ih

theorem consumeFrom_skip_none (l1 : List (Option FileRec)) :
    ∀ acc l2, consumeFrom acc (l1 ++ none :: l2) = consumeFrom acc (l1 ++ l2) := by
  induction l1 with
  | nil => intro acc l2; rfl
  | cons r t ih =>
    intro acc l2
    cases r with
    | none => exact ih acc l2
    | some rc =>
      obtain ⟨h, p, s⟩ := rc
      exact ih _ l2

theorem aggregate_skip_none (fs : Filesystem) (l1 l2 : List (Option FileRec)) :
    aggregate fs (l1 ++ none :: l2) = aggregate fs (l1 ++ l2) := by
  simp only [aggregate, consume, consumeFrom_skip_none]

/-- Full characterization of a successful aggregation, used by several
claims below: when the recorded sizes agree with the filesystem, the
aggregation succeeds and each field of the scan result is determined by
the successful results. -/
theorem aggregate_characterization (fs : Filesystem) (results : List (Option FileRec))
    (hcons : ∀ r ∈ successes results, ∃ e, fs r.2.1 = some e ∧ e.size = r.2.2) :
    aggregate fs results = some ⟨duplicate_files (consume results).1,
      ((successes results).map (fun r => r.2.2)).sum,
      ((duplicate_files (consume results).1).map (fun kv =>
        (firstRecordSize results kv.1).getD 0 * (kv.2.length - 1))).sum,
      (successes results).length⟩ := by
  have hterm : ∀ kv ∈ duplicate_files (consume results).1,
      dupSetSize fs kv.2
        = some ((firstRecordSize results kv.1).getD 0 * (kv.2.length - 1)) := by
    intro kv hkv
    obtain ⟨hsh, ps⟩ := kv
    obtain ⟨hm, hlen⟩ := (mem_duplicate_files _ _).mp hkv
    obtain ⟨hkhash, hpaths⟩ := (consume_mem_iff results hsh ps).mp hm
    obtain ⟨p, t, rfl⟩ : ∃ p t, ps = p :: t := by
      cases ps with
      | nil => simp at hlen
      | cons p t => exact ⟨p, t, rfl⟩
    have hmapeq : ((successes results).filter (fun r => r.1 == hsh)).map (fun r => r.2.1)
        = p :: t := hpaths.symm
    cases hfl : (successes results).filter (fun r => r.1 == hsh) with
    | nil => rw [hfl] at hmapeq; simp at hmapeq
    | cons r0 rest' =>
      rw [hfl] at hmapeq
      simp only [List.map_cons, List.cons.injEq] at hmapeq
      have hr0 : r0 ∈ successes results :=
        List.mem_of_mem_filter (hfl ▸ List.mem_cons_self r0 rest')
      obtain ⟨e, hfe, hsz⟩ := hcons r0 hr0
      have hfirst : firstRecordSize results hsh = some r0.2.2 := by
        rw [firstRecordSize, find?_eq_head_filter, hfl]
        rfl
      simp only [dupSetSize, getsize, ← hmapeq.1, hfe, hfirst]
      simp [hsz]
  have hds := duplicate_size_eq_some fs (duplicate_files (consume results).1) _ hterm
  simp only [aggregate]
  rw [hds]
  simp [consume_total, consume_count]

/-- C1: for every result sequence whose recorded sizes agree with the
filesystem (as holds for results produced by `process_file` against that
same filesystem), the aggregation succeeds; `total_size` is the sum of
the sizes of all successful results (duplicates and non-duplicates
alike), `files_processed` is the number of successful results, every
retained duplicate set holds exactly the paths of the results carrying
its digest, and `dup_size` is the sum, over retained sets, of the size
of the set's first member times (member count - 1). -/
theorem aggregate_totals (fs : Filesystem) (results : List (Option FileRec))
    (hcons : ∀ r ∈ successes results, ∃ e, fs r.2.1 = some e ∧ e.size = r.2.2) :
    ∃ sr, aggregate fs results = some sr ∧
      sr.total_size = ((successes results).map (fun r => r.2.2)).sum ∧
      sr.files_processed = (successes results).length ∧
      (∀ kv ∈ sr.duplicates, kv.2 = pathsFor results kv.1) ∧
      sr.dup_size = (sr.duplicates.map (fun kv =>
        (firstRecordSize results kv.1).getD 0 * (kv.2.length - 1))).sum := by
  refine ⟨_, aggregate_characterization fs results hcons, rfl, rfl, ?_, rfl⟩
  intro kv hkv
  obtain ⟨hsh, ps⟩ := kv
  obtain ⟨hm, _⟩ := (mem_duplicate_files _ _).mp hkv
  exact ((consume_mem_iff results hsh ps).mp hm).2

/-- C2: in every successful aggregation, every retained duplicate set has
at least two member paths; the retained map is exactly the post-hoc
filter of the full map built during consumption, and that full map holds
an entry for every successful result (so singleton groups are removed
only after aggregation completes, never during it). -/
theorem duplicate_sets_min_two (fs : Filesystem) (results : List (Option FileRec))
    (sr : ScanResult) (hagg : aggregate fs results = some sr) :
    (∀ kv ∈ sr.duplicates, 2 ≤ kv.2.length) ∧
    sr.duplicates = duplicate_files (consume results).1 ∧
    (∀ r ∈ successes results, ∃ kv ∈ (consume results).1, kv.1 = r.1 ∧ r.2.1 ∈ kv.2) := by
  have hdup : sr.duplicates = duplicate_files (consume results).1 := by
    simp only [aggregate] at hagg
    obtain ⟨v, hv, hsr⟩ := Option.map_eq_some'.mp hagg
    rw [← hsr]
  refine ⟨?_, hdup, ?_⟩
  · intro kv hkv
    rw [hdup] at hkv
    exact (mem_duplicate_files _ kv).mp hkv |>.2
  · intro r hr
    have hk : r.1 ∈ (successes results).map (fun x => x.1) := List.mem_map_of_mem _ hr
    refine ⟨(r.1, pathsFor results r.1),
      (consume_mem_iff results r.1 (pathsFor results r.1)).mpr ⟨hk, rfl⟩, rfl, ?_⟩
    exact List.mem_map_of_mem _ (List.mem_filter.mpr ⟨hr, by simp⟩)

/-- A small concrete filesystem used by the witnesses: two files with
equal content (digest `"h1"`, 7 bytes) and one unique file (digest
`"h2"`, 5 bytes). -/
def exFS : Filesystem := fun p =>
  if p = ["r", "a.txt"] then some ⟨7, true, "h1"⟩
  else if p = ["r", "b.txt"] then some ⟨7, true, "h1"⟩
  else if p = ["r", "c.txt"] then some ⟨5, true, "h2"⟩
  else none

/-- Worker results for `exFS` in one possible completion order. -/
def exResults : List (Option FileRec) :=
  [some ("h1", ["r", "a.txt"], 7), some ("h2", ["r", "c.txt"], 5),
   some ("h1", ["r", "b.txt"], 7), none]

/-- C1 witness: the totals theorem applied to the concrete results. -/
theorem aggregate_totals_witness :
    ∃ sr, aggregate exFS exResults = some sr ∧
      sr.total_size = ((successes exResults).map (fun r => r.2.2)).sum ∧
      sr.files_processed = (successes exResults).length ∧
      (∀ kv ∈ sr.duplicates, kv.2 = pathsFor exResults kv.1) ∧
      sr.dup_size = (sr.duplicates.map (fun kv =>
        (firstRecordSize exResults kv.1).getD 0 * (kv.2.length - 1))).sum :=
  aggregate_totals exFS exResults (by
    intro r hr
    simp [successes, exResults] at hr
    rcases hr with rfl | rfl | rfl
    · exact ⟨⟨7, true, "h1"⟩, by decide, by decide⟩
    · exact ⟨⟨5, true, "h2"⟩, by decide, by decide⟩
    · exact ⟨⟨7, true, "h1"⟩, by decide, by decide⟩)

/-- C2 witness: the minimum-cardinality theorem applied to the concrete
scan result of `exResults`. -/
theorem duplicate_sets_min_two_witness :
    (∀ kv ∈ (ScanResult.mk [("h1", [["r", "a.txt"], ["r", "b.txt"]])] 19 7 3).duplicates,
        2 ≤ kv.2.length) ∧
    (ScanResult.mk [("h1", [["r", "a.txt"], ["r", "b.txt"]])] 19 7 3).duplicates
      = duplicate_files (consume exResults).1 ∧
    (∀ r ∈ successes exResults,
        ∃ kv ∈ (consume exResults).1, kv.1 = r.1 ∧ r.2.1 ∈ kv.2) :=
  duplicate_sets_min_two exFS exResults
    (ScanResult.mk [("h1", [["r", "a.txt"], ["r", "b.txt"]])] 19 7 3) (by decide)

/-- C4: for a file the filesystem knows, `process_file` fails without
reading when the size is strictly below the minimum (the outcome does not
depend on the file's readability or content, only on its size), succeeds
with the digest record when the size is at least the minimum (threshold
included) and the read succeeds, and a failed candidate contributes
nothing to any total or duplicate set of the aggregation. -/
theorem process_file_size_gate (fs : Filesystem) (p : AbsPath) (min_size : Nat) (e : FSEntry)
    (hfs : fs p = some e) :
    (e.size < min_size → process_file fs (p, min_size) = none) ∧
    (e.size < min_size → ∀ (fs' : Filesystem) (e' : FSEntry), fs' p = some e' →
        e'.size = e.size → process_file fs' (p, min_size) = none) ∧
    (min_size ≤ e.size → e.readable = true →
        process_file fs (p, min_size) = some (e.hash, p, e.size)) ∧
    (∀ l1 l2 : List (Option FileRec), aggregate fs (l1 ++ none :: l2) = aggregate fs (l1 ++ l2)) := by
  refine ⟨?_, ?_, ?_, fun l1 l2 => aggregate_skip_none fs l1 l2⟩
  · intro hlt
    simp [process_file, hfs, hlt]
  · intro hlt fs' e' hfs' hsz
    simp [process_file, hfs', hsz, hlt]
  · intro hge hr
    simp [process_file, hfs, Nat.not_lt.mpr hge, hr]

/-- C4 witness: the 5-byte file is skipped under a 10-byte minimum and
digested under a 5-byte minimum. -/
theorem process_file_size_gate_witness :
    process_file exFS (["r", "c.txt"], 10) = none ∧
      process_file exFS (["r", "c.txt"], 5)
        = some ((⟨5, true, "h2"⟩ : FSEntry).hash, ["r", "c.txt"], (⟨5, true, "h2"⟩ : FSEntry).size) :=
  ⟨(process_file_size_gate exFS ["r", "c.txt"] 10 ⟨5, true, "h2"⟩ (by decide)).1 (by decide),
   (process_file_size_gate exFS ["r", "c.txt"] 5 ⟨5, true, "h2"⟩ (by decide)).2.2.1
     (by decide) (by decide)⟩

/-- C6: mapping `process_file` over the candidate list yields exactly one
outcome per submitted candidate; a candidate whose read fails yields a
failure for that candidate only while every other candidate is still
processed; and failed outcomes contribute nothing to the duplicate map,
the total bytes, the duplicate bytes, or the processed-file count. -/
theorem one_outcome_per_candidate (fs : Filesystem) (candidates : List (AbsPath × Nat)) :
    (candidates.map (process_file fs)).length = candidates.length ∧
    (∀ pre bad post, candidates = pre ++ bad :: post →
        candidates.map (process_file fs)
          = pre.map (process_file fs) ++ process_file fs bad :: post.map (process_file fs)) ∧
    (∀ (p : AbsPath) (ms : Nat) (e : FSEntry), fs p = some e → e.readable = false →
        ms ≤ e.size → process_file fs (p, ms) = none) ∧
    (∀ l1 l2 : List (Option FileRec), aggregate fs (l1 ++ none :: l2) = aggregate fs (l1 ++ l2)) := by
  refine ⟨by simp, ?_, ?_, fun l1 l2 => aggregate_skip_none fs l1 l2⟩
  · intro pre bad post hc
    subst hc
    simp
  · intro p ms e hfs hr hge
    simp [process_file, hfs, Nat.not_lt.mpr hge, hr]

/-- C6 witness: the per-candidate decomposition at a concrete candidate
list whose middle candidate is absent from the filesystem. -/
theorem one_outcome_per_candidate_witness :
    ([(["r", "a.txt"], 0), (["gone"], 0), (["r", "c.txt"], 0)] : List (AbsPath × Nat)).map
        (process_file exFS)
      = ([(["r", "a.txt"], 0)] : List (AbsPath × Nat)).map (process_file exFS)
        ++ process_file exFS (["gone"], 0)
          :: ([(["r", "c.txt"], 0)] : List (AbsPath × Nat)).map (process_file exFS) :=
  (one_outcome_per_candidate exFS _).2.1 [(["r", "a.txt"], 0)] (["gone"], 0)
    [(["r", "c.txt"], 0)] rfl

theorem mem_dups_iff (results : List (Option FileRec)) (hsh : String) (ps : List AbsPath) :
    (hsh, ps) ∈ duplicate_files (consume results).1
      ↔ hsh ∈ (successes results).map (fun r => r.1)
        ∧ ps = pathsFor results hsh ∧ 1 < ps.length := by
  rw [mem_duplicate_files, consume_mem_iff]
  tauto

theorem keysOf_dups_nodup (results : List (Option FileRec)) :
    (keysOf (duplicate_files (consume results).1)).Nodup :=
  ((List.filter_sublist _).map Prod.fst).nodup (consume_keys_nodup results)

theorem mem_keysOf_dups_iff (results : List (Option FileRec)) (h : String) :
    h ∈ keysOf (duplicate_files (consume results).1)
      ↔ h ∈ (successes results).map (fun r => r.1) ∧ 1 < (pathsFor results h).length := by
  constructor
  · intro hk
    obtain ⟨kv, hkv, hfst⟩ := List.mem_map.mp hk
    obtain ⟨hsh0, ps0⟩ := kv
    cases hfst
    obtain ⟨h1, h2, h3⟩ := (mem_dups_iff results _ ps0).mp hkv
    exact ⟨h1, h2 ▸ h3⟩
  · rintro ⟨h1, h2⟩
    exact List.mem_map.mpr
      ⟨(h, pathsFor results h), (mem_dups_iff results h _).mpr ⟨h1, rfl, h2⟩, rfl⟩

theorem firstRecordSize_eq (results : List (Option FileRec)) (h : String)
    (hne : pathsFor results h ≠ []) :
    ∃ r0, r0 ∈ successes results ∧ r0.1 = h ∧ firstRecordSize results h = some r0.2.2 := by
  cases hfl : (successes results).filter (fun r => r.1 == h) with
  | nil =>
    exfalso
    apply hne
    rw [pathsFor, hfl]
    rfl
  | cons r0 rest =>
    have hr0f : r0 ∈ (successes results).filter (fun r => r.1 == h) := by
      rw [hfl]; exact List.mem_cons_self _ _
    refine ⟨r0, List.mem_of_mem_filter hr0f, ?_, ?_⟩
    · have := (List.mem_filter.mp hr0f).2
      simpa using this
    · rw [firstRecordSize, find?_eq_head_filter, hfl]
      rfl

/-- The per-key contribution to `duplicate_size`, expressed from the
results alone (valid whenever sizes agree with the filesystem). -/
def dupTermFor (results : List (Option FileRec)) (h : String) : Nat :=
  (firstRecordSize results h).getD 0 * ((pathsFor results h).length - 1)

theorem dups_map_term (results : List (Option FileRec)) :
    ((duplicate_files (consume results).1).map (fun kv =>
        (firstRecordSize results kv.1).getD 0 * (kv.2.length - 1)))
      = (keysOf (duplicate_files (consume results).1)).map (dupTermFor results) := by
  rw [keysOf, List.map_map]
  apply List.map_congr_left
  intro kv hkv
  obtain ⟨hsh, ps⟩ := kv
  obtain ⟨_, h2, _⟩ := (mem_dups_iff results hsh ps).mp hkv
  simp only [Function.comp, dupTermFor]
  rw [h2]

/-- C3: aggregating any permutation of the same multiset of worker
results yields the same scan result: identical totals and processed-file
count, the same set of digest keys, and per digest the same member paths
up to order. -/
theorem aggregate_order_invariant (fs : Filesystem) (results results' : List (Option FileRec))
    (hperm : results'.Perm results)
    (hcons : ∀ r ∈ successes results, ∃ e, fs r.2.1 = some e ∧ e.size = r.2.2)
    (hsz : ∀ r ∈ successes results, ∀ r' ∈ successes results, r.1 = r'.1 → r.2.2 = r'.2.2) :
    ∃ sr sr', aggregate fs results = some sr ∧ aggregate fs results' = some sr' ∧
      sr'.total_size = sr.total_size ∧
      sr'.files_processed = sr.files_processed ∧
      sr'.dup_size = sr.dup_size ∧
      (∀ h : String, (∃ ps, (h, ps) ∈ sr.duplicates) ↔ ∃ ps', (h, ps') ∈ sr'.duplicates) ∧
      (∀ h ps ps', (h, ps) ∈ sr.duplicates → (h, ps') ∈ sr'.duplicates → ps.Perm ps') := by
  have sp : (successes results').Perm (successes results) := hperm.filterMap id
  have hcons' : ∀ r ∈ successes results', ∃ e, fs r.2.1 = some e ∧ e.size = r.2.2 :=
    fun r hr => hcons r (sp.subset hr)
  have pfp : ∀ h : String, (pathsFor results' h).Perm (pathsFor results h) :=
    fun h => (sp.filter _).map _
  have hF : ∀ h : String, pathsFor results h ≠ [] →
      (firstRecordSize results' h).getD 0 = (firstRecordSize results h).getD 0 := by
    intro h hne
    have hne' : pathsFor results' h ≠ [] := by
      intro hnil
      apply hne
      have := (pfp h).symm
      rw [hnil] at this
      exact List.perm_nil.mp this
    obtain ⟨r0, hr0mem, hr0h, hfs0⟩ := firstRecordSize_eq results h hne
    obtain ⟨r0', hr0mem', hr0h', hfs0'⟩ := firstRecordSize_eq results' h hne'
    rw [hfs0, hfs0']
    simp only [Option.getD_some]
    exact hsz r0' (sp.subset hr0mem') r0 hr0mem (hr0h'.trans hr0h.symm)
  have kperm : (keysOf (duplicate_files (consume results').1)).Perm
      (keysOf (duplicate_files (consume results).1)) := by
    refine (List.perm_ext_iff_of_nodup (keysOf_dups_nodup results') (keysOf_dups_nodup results)).mpr ?_
    intro h
    rw [mem_keysOf_dups_iff, mem_keysOf_dups_iff]
    constructor
    · rintro ⟨h1, h2⟩
      exact ⟨(sp.map _).mem_iff.mp h1, (pfp h).length_eq ▸ h2⟩
    · rintro ⟨h1, h2⟩
      exact ⟨(sp.map _).mem_iff.mpr h1, ((pfp h).length_eq).symm ▸ h2⟩
  refine ⟨_, _, aggregate_characterization fs results hcons,
    aggregate_characterization fs results' hcons', ?_, ?_, ?_, ?_, ?_⟩
  · exact (sp.map _).sum_eq
  · exact sp.length_eq
  · show ((duplicate_files (consume results').1).map (fun kv =>
        (firstRecordSize results' kv.1).getD 0 * (kv.2.length - 1))).sum
      = ((duplicate_files (consume results).1).map (fun kv =>
        (firstRecordSize results kv.1).getD 0 * (kv.2.length - 1))).sum
    rw [dups_map_term, dups_map_term]
    have hcong : (keysOf (duplicate_files (consume results').1)).map (dupTermFor results')
        = (keysOf (duplicate_files (consume results').1)).map (dupTermFor results) := by
      apply List.map_congr_left
      intro h hk
      have hmm := (mem_keysOf_dups_iff results' h).mp hk
      have hne : pathsFor results h ≠ [] := by
        intro hnil
        have hlen := (pfp h).length_eq
        rw [hnil] at hlen
        simp at hlen
        rw [hlen] at hmm
        simp at hmm
      simp only [dupTermFor]
      rw [hF h hne, (pfp h).length_eq]
    rw [hcong]
    exact (kperm.map (dupTermFor results)).sum_eq
  · intro h
    constructor
    · rintro ⟨ps, hps⟩
      obtain ⟨h1, h2, h3⟩ := (mem_dups_iff results h ps).mp hps
      subst h2
      refine ⟨pathsFor results' h, (mem_dups_iff results' h _).mpr
        ⟨(sp.map _).mem_iff.mpr h1, rfl, ?_⟩⟩
      rw [(pfp h).length_eq]
      exact h3
    · rintro ⟨ps', hps'⟩
      obtain ⟨h1, h2, h3⟩ := (mem_dups_iff results' h ps').mp hps'
      subst h2
      refine ⟨pathsFor results h, (mem_dups_iff results h _).mpr
        ⟨(sp.map _).mem_iff.mp h1, rfl, ?_⟩⟩
      rw [← (pfp h).length_eq]
      exact h3
  · intro h ps ps' hps hps'
    obtain ⟨_, h2, _⟩ := (mem_dups_iff results h ps).mp hps
    obtain ⟨_, h2', _⟩ := (mem_dups_iff results' h ps').mp hps'
    rw [h2, h2']
    exact (pfp h).symm

/-- `exResults` delivered in a different completion order. -/
def exResultsPerm : List (Option FileRec) :=
  [some ("h1", ["r", "b.txt"], 7), none, some ("h2", ["r", "c.txt"], 5),
   some ("h1", ["r", "a.txt"], 7)]

/-- C3 witness: order invariance at a concrete permutation of the
concrete results. -/
theorem aggregate_order_invariant_witness :
    ∃ sr sr', aggregate exFS exResults = some sr ∧ aggregate exFS exResultsPerm = some sr' ∧
      sr'.total_size = sr.total_size ∧
      sr'.files_processed = sr.files_processed ∧
      sr'.dup_size = sr.dup_size ∧
      (∀ h : String, (∃ ps, (h, ps) ∈ sr.duplicates) ↔ ∃ ps', (h, ps') ∈ sr'.duplicates) ∧
      (∀ h ps ps', (h, ps) ∈ sr.duplicates → (h, ps') ∈ sr'.duplicates → ps.Perm ps') :=
  aggregate_order_invariant exFS exResults exResultsPerm (by decide)
    (by
      intro r hr
      simp [successes, exResults] at hr
      rcases hr with rfl | rfl | rfl
      · exact ⟨⟨7, true, "h1"⟩, by decide, by decide⟩
      · exact ⟨⟨5, true, "h2"⟩, by decide, by decide⟩
      · exact ⟨⟨7, true, "h1"⟩, by decide, by decide⟩)
    (by decide)

/- ===== Directory traversal and candidate collection ===== -/

/-- A directory tree: the regular files in this directory and the named
subdirectories (what `os.walk` enumerates per directory). -/
inductive DirTree where
  | node (files : List String) (subdirs : List (String × DirTree))

/-- Python's `os.path.abspath(root).startswith(d)` on normalized absolute
directory paths, modelled on component lists: `d` is a leading component
sequence of `cur`.  (The string form also matches non-boundary prefixes
such as excluding `/a/b` matching `/a/bc`; the component model excludes
fewer directories, so everything proved about what survives collection
also holds for the code.) -/
def startsWithPath (d cur : AbsPath) : Bool := cur.take d.length == d

/-- Python `name.startswith(".")` on a directory name. -/
def nameStartsWithDot (n : String) : Bool := n.data.take 1 == ['.']

/-- Python `str.lower` (ASCII). -/
def strLower (s : String) : String := ⟨s.data.map Char.toLower⟩

/-- Python `s.endswith(suffix)`. -/
def strEndsWith (s suffix : String) : Bool :=
  s.data.drop (s.data.length - suffix.data.length) == suffix.data

/-- The candidate-collection walk of `find_duplicates`
(src/main.py:177-197): per directory, if the absolute path extends an
excluded directory, skip its files (`continue`) but keep walking into
every subdirectory; otherwise emit the files that survive the extension
filter and descend, pruning dot-named subdirectories when
`ignore_dot_dirs` is set (`dirs[:] = ...`).  `exX` holds the
already-lower-cased excluded extensions; the `exclude_extensions and`
truthiness guard in the source is redundant since `any` over an empty
list is already false. -/
def collect (exD : List AbsPath) (exX : List String) (ig : Bool) :
    AbsPath → DirTree → List AbsPath
  | cur, .node files subdirs =>
    if exD.any (fun d => startsWithPath d cur) then
      (subdirs.attach.map (fun s =>
        collect exD exX ig (cur ++ [s.1.1]) s.1.2)).flatten
    else
      (files.filter (fun fn => !(exX.any (fun e => strEndsWith (strLower fn) e)))).map
          (fun fn => cur ++ [fn])
        ++ (subdirs.attach.map (fun s =>
            if ig && nameStartsWithDot s.1.1 then []
            else collect exD exX ig (cur ++ [s.1.1]) s.1.2)).flatten
  termination_by cur t => sizeOf t
  decreasing_by
  all_goals
    obtain ⟨⟨nm, tr⟩, hmem⟩ := s
    simp_wf
    have h1 := List.sizeOf_lt_of_mem hmem
    simp at h1
    omega

/-- `FileProcessor.find_duplicates` (src/main.py:139-223): collect the
candidates, process each one, and aggregate the results.  The parallel
pool delivers results in arbitrary order; this model processes them in
collection order, and `aggregate_order_invariant` shows any other
delivery order yields the same scan result. -/
def find_duplicates (fs : Filesystem) (directory : AbsPath) (t : DirTree)
    (exclude_dirs : List AbsPath) (exclude_extensions : List String)
    (min_size : Nat) (ignore_dot_dirs : Bool) : Option ScanResult :=
  let files_to_process :=
    (collect exclude_dirs (exclude_extensions.map strLower) ignore_dot_dirs
        directory t).map (fun p => (p, min_size))
  aggregate fs (files_to_process.map (process_file fs))

theorem startsWithPath_append (d cur : AbsPath) (n : String)
    (h : startsWithPath d cur = true) : startsWithPath d (cur ++ [n]) = true := by
  simp [startsWithPath] at h ⊢
  have hlen : d.length ≤ cur.length := by
    have := congrArg List.length h
    simp at this
    omega
  rw [List.take_append_of_le_length hlen]
  exact h

/-- A directory under an excluded directory contributes no candidate at
all: the walk still descends, but every descendant is excluded again. -/
theorem collect_excluded (exD : List AbsPath) (exX : List String) (ig : Bool) :
    ∀ cur t, exD.any (fun d => startsWithPath d cur) = true →
      collect exD exX ig cur t = [] := by
  intro cur t
  induction cur, t using collect.induct exD exX ig with
  | case1 cur files subdirs hex ih =>
    intro _
    rw [collect, if_pos hex]
    simp only [List.flatten_eq_nil_iff, List.mem_map]
    rintro l ⟨s, hs, rfl⟩
    obtain ⟨hd, hda⟩ := List.any_eq_true.mp hex
    exact ih s (List.any_eq_true.mpr ⟨hd, hda.1, startsWithPath_append _ _ _ hda.2⟩)
  | case2 cur files subdirs hex ih =>
    intro hc
    exact absurd hc (by simp [hex])

/-- Shape of every emitted candidate: it is a file directly inside a
visited directory `cur ++ comps` that is not excluded, and when dot
pruning is on, no traversed component below the root is dot-named. -/
theorem collect_shape (exD : List AbsPath) (exX : List String) (ig : Bool) :
    ∀ cur t p, p ∈ collect exD exX ig cur t →
      ∃ comps fn, p = cur ++ (comps ++ [fn])
        ∧ exD.any (fun d => startsWithPath d (cur ++ comps)) = false
        ∧ (ig = true → ∀ c ∈ comps, nameStartsWithDot c = false) := by
  intro cur t
  induction cur, t using collect.induct exD exX ig with
  | case1 cur files subdirs hex ih =>
    intro p hp
    rw [collect, if_pos hex] at hp
    simp only [List.mem_flatten, List.mem_map] at hp
    obtain ⟨l, ⟨s, hs, rfl⟩, hpl⟩ := hp
    obtain ⟨hd, hda⟩ := List.any_eq_true.mp hex
    rw [collect_excluded exD exX ig _ _
      (List.any_eq_true.mpr ⟨hd, hda.1, startsWithPath_append _ _ _ hda.2⟩)] at hpl
    exact absurd hpl (List.not_mem_nil p)
  | case2 cur files subdirs hex ih =>
    intro p hp
    rw [collect, if_neg hex] at hp
    simp only [List.mem_append] at hp
    rcases hp with hp | hp
    · simp only [List.mem_map, List.mem_filter] at hp
      obtain ⟨fn, _, rfl⟩ := hp
      exact ⟨[], fn, by simp, by simpa using hex, fun _ => by simp⟩
    · simp only [List.mem_flatten, List.mem_map] at hp
      obtain ⟨l, ⟨s, hs, rfl⟩, hpl⟩ := hp
      by_cases hdot : (ig && nameStartsWithDot s.1.1) = true
      · rw [if_pos hdot] at hpl
        exact absurd hpl (List.not_mem_nil p)
      · rw [if_neg hdot] at hpl
        obtain ⟨comps, fn, hpe, hexc, hdots⟩ := ih s hdot p hpl
        refine ⟨s.1.1 :: comps, fn, ?_, ?_, ?_⟩
        · rw [hpe]
          simp
        · rw [show cur ++ s.1.1 :: comps = (cur ++ [s.1.1]) ++ comps by simp]
          exact hexc
        · intro hig c hc
          rcases List.mem_cons.mp hc with rfl | hc'
          · subst hig
            simpa using hdot
          · exact hdots hig c hc'

/-- C5: collection never emits a candidate lying under an excluded
directory, and with dot pruning enabled no emitted file sits inside a
dot-named subdirectory at any depth below the scan root. -/
theorem collect_respects_exclusions (exD : List AbsPath) (exX : List String) (ig : Bool)
    (cur : AbsPath) (t : DirTree) (p : AbsPath) (hp : p ∈ collect exD exX ig cur t) :
    (∀ d ∈ exD, ∀ rest : List String, rest ≠ [] → p ≠ d ++ rest) ∧
    (ig = true → ∃ comps fn, p = cur ++ (comps ++ [fn])
      ∧ ∀ c ∈ comps, nameStartsWithDot c = false) := by
  obtain ⟨comps, fn, hpe, hexc, hdots⟩ := collect_shape exD exX ig cur t p hp
  constructor
  · intro d hd rest hrest heq
    have hall := List.any_eq_false.mp hexc
    have hq : (cur ++ comps) ++ [fn] = d ++ rest := by
      rw [← heq, hpe]
      simp
    have hlen : d.length ≤ (cur ++ comps).length := by
      rw [List.length_append]
      have hl := congrArg List.length hq
      simp at hl
      have hr : 1 ≤ rest.length := List.length_pos.mpr hrest
      omega
    have htake : (cur ++ comps).take d.length = d := by
      have h1 : ((cur ++ comps) ++ [fn]).take d.length = (cur ++ comps).take d.length :=
        List.take_append_of_le_length hlen
      rw [hq] at h1
      rw [← h1, List.take_left]
    have : startsWithPath d (cur ++ comps) = true := by
      simp [startsWithPath, htake]
    exact hall d hd this
  · intro hig
    exact ⟨comps, fn, hpe, hdots hig⟩

/-- Unfolding equation for `collect` with the `attach` bookkeeping
removed, used to evaluate it on concrete trees. -/
theorem collect_eval (exD : List AbsPath) (exX : List String) (ig : Bool) (cur : AbsPath)
    (files : List String) (subdirs : List (String × DirTree)) :
    collect exD exX ig cur (.node files subdirs)
      = if exD.any (fun d => startsWithPath d cur) then
          (subdirs.map (fun pr => collect exD exX ig (cur ++ [pr.1]) pr.2)).flatten
        else
          (files.filter (fun fn => !(exX.any (fun e => strEndsWith (strLower fn) e)))).map
              (fun fn => cur ++ [fn])
            ++ (subdirs.map (fun pr =>
                if ig && nameStartsWithDot pr.1 then []
                else collect exD exX ig (cur ++ [pr.1]) pr.2)).flatten := by
  rw [collect]
  by_cases hex : (exD.any fun d => startsWithPath d cur) = true
  · rw [if_pos hex, if_pos hex,
      List.attach_map_val subdirs (fun pr => collect exD exX ig (cur ++ [pr.1]) pr.2)]
  · rw [if_neg hex, if_neg hex,
      List.attach_map_val subdirs (fun pr =>
        if ig && nameStartsWithDot pr.1 then [] else collect exD exX ig (cur ++ [pr.1]) pr.2)]

/-- A small concrete tree for the traversal witness: a kept subdirectory,
a dot directory, and an excluded subdirectory. -/
def exTree : DirTree :=
  .node ["keep.txt"]
    [("sub", .node ["a.txt"] []),
     (".git", .node ["gitfile"] []),
     ("skipme", .node ["b.txt"] [])]

/-- C5 witness: the exclusion theorem applied to a concrete emitted
candidate of `exTree` under an exclusion list and dot pruning. -/
theorem collect_respects_exclusions_witness :
    (∀ d ∈ [["root", "skipme"]], ∀ rest : List String, rest ≠ [] →
        (["root", "sub", "a.txt"] : AbsPath) ≠ d ++ rest) ∧
    (true = true → ∃ comps fn,
        (["root", "sub", "a.txt"] : AbsPath) = ["root"] ++ (comps ++ [fn])
          ∧ ∀ c ∈ comps, nameStartsWithDot c = false) :=
  collect_respects_exclusions [["root", "skipme"]] [] true ["root"] exTree
    ["root", "sub", "a.txt"]
    (by simp only [exTree, collect_eval, List.map_cons, List.map_nil]; decide)

/- ===== Export serializers and main's control flow ===== -/

/-- A path component list rendered back to the string Python carries. -/
def pathToString (p : AbsPath) : String := String.intercalate "/" p

/-- The `duplicate_sets` array built by the json branch of
`export_to_file` (src/main.py:315-324): one `(size, files)` object per
set, sized by `os.path.getsize(files[0])`; raises on an empty set or a
vanished file, modelled as `none`. -/
def jsonExportSets (fs : Filesystem) : HashMapL → Option (List (Nat × List AbsPath))
  | [] => some []
  | kv :: rest =>
    match kv.2 with
    | [] => none
    | p :: _ =>
      match getsize fs p, jsonExportSets fs rest with
      | some s, some tail => some ((s, kv.2) :: tail)
      | _, _ => none

/-- The data rows written by the csv branch of `export_to_file`
(src/main.py:326-333): per set (1-based index `i` in iteration order) one
row `[i, size, filepath]` for each member path. -/
def csvRows (fs : Filesystem) : Nat → HashMapL → Option (List (List String))
  | _, [] => some []
  | i, kv :: rest =>
    match kv.2 with
    | [] => none
    | p :: _ =>
      match getsize fs p, csvRows fs (i + 1) rest with
      | some s, some tail =>
        some (kv.2.map (fun fp => [toString i, toString s, pathToString fp]) ++ tail)
      | _, _ => none

/-- What `export_to_file` writes, per format.  The txt branch writes one
block per set (a humanized size header plus the member paths); its
underlying data is the same `(size, files)` sequence as json. -/
inductive ExportData where
  | jsonData (sets : List (Nat × List AbsPath))
  | csvData (rows : List (List String))
  | txtData (sets : List (Nat × List AbsPath))
deriving DecidableEq

/-- `export_to_file` (src/main.py:300-344; the file repeats the same
definition at 226-270 and the later one wins): json and csv as above,
any other format string falls to the txt branch. -/
def export_to_file (fs : Filesystem) (duplicates : HashMapL) (format : String) :
    Option ExportData :=
  if format = "json" then (jsonExportSets fs duplicates).map ExportData.jsonData
  else if format = "csv" then
    (csvRows fs 1 duplicates).map (fun rows => ExportData.csvData (["Set", "Size", "File"] :: rows))
  else (jsonExportSets fs duplicates).map ExportData.txtData

theorem jsonExportSets_eq (fs : Filesystem) (σ : String → Nat) :
    ∀ dups : HashMapL, (∀ kv ∈ dups, ∃ p t, kv.2 = p :: t ∧ getsize fs p = some (σ kv.1)) →
      jsonExportSets fs dups = some (dups.map (fun kv => (σ kv.1, kv.2))) := by
  intro dups
  induction dups with
  | nil => intro _; rfl
  | cons kv rest ih =>
    intro hσ
    obtain ⟨hsh, ps⟩ := kv
    obtain ⟨p, t, hps, hg⟩ := hσ (hsh, ps) (List.mem_cons_self _ _)
    simp only at hps hg
    subst hps
    have htail := ih (fun x hx => hσ x (List.mem_cons_of_mem _ hx))
    simp [jsonExportSets, hg, htail]

theorem csvRows_eq (fs : Filesystem) (σ : String → Nat) :
    ∀ dups : HashMapL, (∀ kv ∈ dups, ∃ p t, kv.2 = p :: t ∧ getsize fs p = some (σ kv.1)) →
      ∀ i, csvRows fs i dups
        = some ((List.enumFrom i dups).flatMap (fun ikv =>
            ikv.2.2.map (fun fp => [toString ikv.1, toString (σ ikv.2.1), pathToString fp]))) := by
  intro dups
  induction dups with
  | nil => intro _ i; rfl
  | cons kv rest ih =>
    intro hσ i
    obtain ⟨hsh, ps⟩ := kv
    obtain ⟨p, t, hps, hg⟩ := hσ (hsh, ps) (List.mem_cons_self _ _)
    simp only at hps hg
    subst hps
    have htail := ih (fun x hx => hσ x (List.mem_cons_of_mem _ hx)) (i + 1)
    simp [csvRows, hg, htail, List.enumFrom, List.flatMap]

/-- C9: for a duplicate map whose sets are all nonempty with their first
member present on the filesystem (with representative sizes `σ`), the
json export is the `duplicate_sets` array with one `(size, files)` entry
per set in order, and the csv export is the `Set,Size,File` header
followed by one row per (set, file) pair, the set column being the
1-based sequential index of the set in iteration order and the size
column the set's representative size. -/
theorem export_formats (fs : Filesystem) (duplicates : HashMapL) (σ : String → Nat)
    (hσ : ∀ kv ∈ duplicates, ∃ p t, kv.2 = p :: t ∧ getsize fs p = some (σ kv.1)) :
    export_to_file fs duplicates "json"
        = some (ExportData.jsonData (duplicates.map (fun kv => (σ kv.1, kv.2)))) ∧
    export_to_file fs duplicates "csv"
        = some (ExportData.csvData (["Set", "Size", "File"]
            :: (List.enumFrom 1 duplicates).flatMap (fun ikv =>
                ikv.2.2.map (fun fp => [toString ikv.1, toString (σ ikv.2.1), pathToString fp])))) := by
  constructor
  · simp [export_to_file, jsonExportSets_eq fs σ duplicates hσ]
  · simp [export_to_file, csvRows_eq fs σ duplicates hσ 1]

/-- The duplicate map of the witness scan. -/
def exDups : HashMapL := [("h1", [["r", "a.txt"], ["r", "b.txt"]])]

/-- C9 witness: the export contract at the concrete duplicate map. -/
theorem export_formats_witness :
    export_to_file exFS exDups "json"
        = some (ExportData.jsonData (exDups.map (fun kv => ((fun _ => 7) kv.1, kv.2)))) ∧
    export_to_file exFS exDups "csv"
        = some (ExportData.csvData (["Set", "Size", "File"]
            :: (List.enumFrom 1 exDups).flatMap (fun ikv =>
                ikv.2.2.map (fun fp =>
                  [toString ikv.1, toString ((fun _ => 7) ikv.2.1), pathToString fp])))) :=
  export_formats exFS exDups (fun _ => 7) (by
    intro kv hkv
    simp [exDups] at hkv
    subst hkv
    exact ⟨["r", "a.txt"], [["r", "b.txt"]], rfl, by decide⟩)

/-- The command-line options `main` consumes after parsing
(src/main.py:367-414). -/
structure Args where
  exclude_dir : List AbsPath
  exclude_ext : List String
  min_size : List Char
  output : Option String
  fmt : String
  dry_run : Bool
  include_dot_dirs : Bool
deriving DecidableEq

/-- How a run of `main` ends. -/
inductive MainResult where
  | exitError
  | dryRunShown
  | noDuplicates
  | completed (exported : Option (String × String))
deriving DecidableEq

/-- `sys.exit` code of each ending (src/main.py:363-365: 0 on success,
including dry-run and no-duplicates; 1 on invalid directory or size). -/
def exit_code : MainResult → Nat
  | .exitError => 1
  | _ => 0

/-- The `export_to_file` invocation a run performed, if any: the output
path and format passed at src/main.py:512. -/
def exportCallOf : MainResult → Option (String × String)
  | .completed e => e
  | _ => none

/-- `main` (src/main.py:347-515): exit 1 when the directory is invalid
(`dirTree = none`) or the size string does not parse; print and stop on
dry-run; scan; when the scan finds no duplicates, report and return
success without exporting; otherwise display the results and export
exactly when an output path was given.  `none` models an unhandled
exception escaping the scan (impossible for a static filesystem). -/
def main_model (fs : Filesystem) (directory : AbsPath) (dirTree : Option DirTree)
    (args : Args) : Option MainResult :=
  match dirTree with
  | none => some MainResult.exitError
  | some t =>
    match parse_size args.min_size with
    | none => some MainResult.exitError
    | some min_size =>
      if args.dry_run then some MainResult.dryRunShown
      else
        match find_duplicates fs directory t args.exclude_dir args.exclude_ext min_size
            (!args.include_dot_dirs) with
        | none => none
        | some sr =>
          if sr.duplicates.isEmpty then some MainResult.noDuplicates
          else some (MainResult.completed (args.output.map (fun o => (o, args.fmt))))

/-- C10: whenever the scan finds zero duplicate sets, `main` ends with
the no-duplicates report: exit code 0 and no call to `export_to_file`,
even when an output path was requested. -/
theorem no_duplicates_no_export (fs : Filesystem) (directory : AbsPath) (t : DirTree)
    (args : Args) (min_size : Nat) (sr : ScanResult)
    (hms : parse_size args.min_size = some min_size)
    (hdry : args.dry_run = false)
    (hscan : find_duplicates fs directory t args.exclude_dir args.exclude_ext min_size
        (!args.include_dot_dirs) = some sr)
    (hnodup : sr.duplicates = []) :
    main_model fs directory (some t) args = some MainResult.noDuplicates ∧
    exit_code MainResult.noDuplicates = 0 ∧
    exportCallOf MainResult.noDuplicates = none := by
  refine ⟨?_, rfl, rfl⟩
  simp [main_model, hms, hdry, hscan, hnodup]

/-- C10 witness: a scan of a single-file tree (no duplicates) with an
output path requested still ends in the no-duplicates report. -/
theorem no_duplicates_no_export_witness :
    main_model exFS ["r"] (some (DirTree.node ["c.txt"] []))
        ⟨[], [], "0".toList, some "out.txt", "json", false, false⟩
      = some MainResult.noDuplicates ∧
    exit_code MainResult.noDuplicates = 0 ∧
    exportCallOf MainResult.noDuplicates = none :=
  no_duplicates_no_export exFS ["r"] (DirTree.node ["c.txt"] [])
    ⟨[], [], "0".toList, some "out.txt", "json", false, false⟩ 0
    ⟨[], 5, 0, 1⟩ (by decide) rfl
    (by
      simp only [find_duplicates, collect_eval, List.map_cons, List.map_nil]
      decide)
    rfl
